import Mathlib

/-!
Verification development for the GROMACS nonbonded SSE kernel family
(`include/inner_sse.h`) and the trajectory frame-pair comparison utility
(`src/programs/mdrun/tests/mdruncomparison.h`).

The header `inner_sse.h` only declares the kernel entry points; their bodies
are not part of this source tree.  The kernel definitions below are therefore
modelled from the specification (sections 3, 4.2, 4.3 of the spec): the shared
pairwise loop skeleton, the per-variant interaction terms and the
solvent-batched partner loop.  Machine single-precision floats are modelled as
exact rationals; the SSE approximate reciprocal square root is modelled as an
explicit function parameter `invsqrt`.

`FramePairManager` is a complete template in the source and is embedded
directly from the code.
-/

namespace GmxVerify

/-- A 3-component coordinate/force vector (one `float[3]` slot of `pos[]`,
`faction[]`, `fshift[]` or `shiftvec[]`), modelled with exact rationals. -/
structure Vec3 where
  x : ℚ
  y : ℚ
  z : ℚ
deriving DecidableEq

/-- Componentwise vector addition. -/
def Vec3.add (a b : Vec3) : Vec3 := ⟨a.x + b.x, a.y + b.y, a.z + b.z⟩

/-- Componentwise vector negation. -/
def Vec3.neg (a : Vec3) : Vec3 := ⟨-a.x, -a.y, -a.z⟩

/-- Componentwise vector subtraction. -/
def Vec3.sub (a b : Vec3) : Vec3 := ⟨a.x - b.x, a.y - b.y, a.z - b.z⟩

/-- Scalar multiple of a vector. -/
def Vec3.smul (c : ℚ) (a : Vec3) : Vec3 := ⟨c * a.x, c * a.y, c * a.z⟩

/-- Euclidean dot product. -/
def Vec3.dot (a b : Vec3) : ℚ := a.x * b.x + a.y * b.y + a.z * b.z

/-- The zero vector. -/
def Vec3.zero : Vec3 := ⟨0, 0, 0⟩

/-- Read a vector array at an index; out-of-range reads yield the zero
vector (the kernels never index out of range by contract, spec section 7). -/
def getV (l : List Vec3) (i : ℕ) : Vec3 := l.getD i Vec3.zero

/-- Read-modify-write accumulation into a vector array at an index
(`faction[j] += t`); past-the-end writes are dropped. -/
def addAtV (l : List Vec3) (i : ℕ) (v : Vec3) : List Vec3 :=
  l.set i ((getV l i).add v)

/-- Read a scalar array at an index, defaulting to zero. -/
def getQ (l : List ℚ) (i : ℕ) : ℚ := l.getD i 0

/-- Read-modify-write accumulation into a scalar array at an index. -/
def addAtQ (l : List ℚ) (i : ℕ) (q : ℚ) : List ℚ :=
  l.set i (getQ l i + q)

/-- Modelled from the spec: the read-only inputs shared by every kernel
variant — the neighbor list (`iinr`, `jindex`, `jjnr`, `shift`, `shiftvec`,
`gid`, outer range `nri`) and the particle positions `pos` (spec section 3).
Parameter tables specific to an interaction kind live in the interaction
functions below. -/
structure KernelInput where
  nri : ℕ
  iinr : List ℕ
  jindex : List ℕ
  jjnr : List ℕ
  shift : List ℕ
  shiftvec : List Vec3
  gid : List ℕ
  pos : List Vec3

/-- The four additive output accumulators of a kernel call
(spec section 3, "Outputs"). -/
structure KernelOut where
  faction : List Vec3
  fshift : List Vec3
  Vc : List ℚ
  Vnb : List ℚ
deriving DecidableEq

/-- Result of evaluating the active interaction term(s) for one pair:
the scalar force coefficient multiplying the displacement vector, the
Coulomb energy contribution and the van-der-Waals energy contribution. -/
structure PairTerm where
  fscal : ℚ
  vc : ℚ
  vnb : ℚ

/-- An interaction-term evaluator: particle ids of the pair and the squared
distance determine the force coefficient and energy contributions
(spec section 4.2 step 3b).  Each kernel variant instantiates this. -/
def Inter : Type := ℕ → ℕ → ℚ → PairTerm

/-- Running state of one central-particle group: the group's central-force
accumulator, the two energy subtotals, and the partner force array being
updated in place (spec section 4.2 step 2). -/
structure GroupAcc where
  fi : Vec3
  vctot : ℚ
  vnbtot : ℚ
  faction : List Vec3

/-- The displacement vector from the partner's unshifted position to the
shifted central coordinate (spec section 4.2 step 3a). -/
def pairDisp (pos : List Vec3) (xi : Vec3) (jid : ℕ) : Vec3 :=
  xi.sub (getV pos jid)

/-- The interaction terms of one pair, evaluated at the pair's squared
distance (spec section 4.2 step 3b). -/
def pairTerm (inter : Inter) (pos : List Vec3) (iid : ℕ) (xi : Vec3)
    (jid : ℕ) : PairTerm :=
  inter iid jid ((pairDisp pos xi jid).dot (pairDisp pos xi jid))

/-- The pairwise force vector: the scalar force coefficient times the
displacement vector (spec section 4.2 step 3c). -/
def pairFvec (inter : Inter) (pos : List Vec3) (iid : ℕ) (xi : Vec3)
    (jid : ℕ) : Vec3 :=
  Vec3.smul (pairTerm inter pos iid xi jid).fscal (pairDisp pos xi jid)

/-- Modelled from the spec (section 4.2 step 3): process one pair.  Compute
the displacement from the shifted central coordinate to the partner's
unshifted position and its squared length, evaluate the interaction terms,
add the pairwise force vector to the group's central accumulator and its
negation to the partner's `faction[]` entry, and accumulate the energies. -/
def pairStep (inter : Inter) (pos : List Vec3) (iid : ℕ) (xi : Vec3)
    (acc : GroupAcc) (jid : ℕ) : GroupAcc :=
  { fi := acc.fi.add (pairFvec inter pos iid xi jid)
    vctot := acc.vctot + (pairTerm inter pos iid xi jid).vc
    vnbtot := acc.vnbtot + (pairTerm inter pos iid xi jid).vnb
    faction := addAtV acc.faction jid (pairFvec inter pos iid xi jid).neg }

/-- The half-open slice `jjnr[jindex[k] : jindex[k+1])` of partner ids of
group `k` (spec section 3). -/
def groupPartnerIds (inp : KernelInput) (k : ℕ) : List ℕ :=
  (inp.jjnr.drop (inp.jindex.getD k 0)).take
    (inp.jindex.getD (k + 1) 0 - inp.jindex.getD k 0)

/-- The central particle's coordinate shifted once by `shiftvec[shift[k]]`
(spec section 4.2 step 1). -/
def shiftedPos (inp : KernelInput) (k : ℕ) : Vec3 :=
  (getV inp.pos (inp.iinr.getD k 0)).add
    (getV inp.shiftvec (inp.shift.getD k 0))

/-- The partner loop of group `k`: fold `pairStep` over the group's partner
slice, starting from a zeroed group accumulator and the current `faction`. -/
def partnerFold (inter : Inter) (inp : KernelInput) (out : KernelOut)
    (k : ℕ) : GroupAcc :=
  (groupPartnerIds inp k).foldl
    (pairStep inter inp.pos (inp.iinr.getD k 0) (shiftedPos inp k))
    ⟨Vec3.zero, 0, 0, out.faction⟩

/-- Modelled from the spec (section 4.2 steps 1-5): process one
central-particle group — run the partner loop, then add the accumulated
central force to `faction[iinr[k]]` and to `fshift[shift[k]]`, and the energy
subtotals to `Vc[gid[k]]` and `Vnb[gid[k]]`. -/
def groupStep (inter : Inter) (inp : KernelInput) (out : KernelOut)
    (k : ℕ) : KernelOut :=
  let acc := partnerFold inter inp out k
  { faction := addAtV acc.faction (inp.iinr.getD k 0) acc.fi
    fshift := addAtV out.fshift (inp.shift.getD k 0) acc.fi
    Vc := addAtQ out.Vc (inp.gid.getD k 0) acc.vctot
    Vnb := addAtQ out.Vnb (inp.gid.getD k 0) acc.vnbtot }

/-- Modelled from the spec (section 4.2): the shared kernel skeleton — fold
the group step over the outer range `[0, nri)`, accumulating into the
caller-owned output arrays. -/
def kernelRun (inter : Inter) (inp : KernelInput) (out : KernelOut) :
    KernelOut :=
  (List.range inp.nri).foldl (groupStep inter inp) out

/-- Modelled from the spec (section 4.2 step 3b, analytic Lennard-Jones):
look up the `c6`/`c12` coefficients in `nbfp` at the type pair, and evaluate
the inverse-power-law terms; `fscal = (12*vnb12 - 6*vnb6)/rsq`. -/
def ljInter (type : List ℕ) (ntype : ℕ) (nbfp : List ℚ) : Inter :=
  fun i j rsq =>
    let ti := type.getD i 0
    let tj := type.getD j 0
    let c6 := getQ nbfp (2 * (ntype * ti + tj))
    let c12 := getQ nbfp (2 * (ntype * ti + tj) + 1)
    let rinvsq := rsq⁻¹
    let rinvsix := rinvsq * rinvsq * rinvsq
    let vnb6 := c6 * rinvsix
    let vnb12 := c12 * rinvsix * rinvsix
    ⟨(12 * vnb12 - 6 * vnb6) * rinvsq, 0, vnb12 - vnb6⟩

/-- Modelled from the spec (section 4.2 step 3b, analytic Coulomb):
`vcoul = facel*qi*qj*rinv`, `fscal = vcoul*rinv*rinv`.  The SSE approximate
reciprocal square root is the explicit parameter `invsqrt`. -/
def coulInter (invsqrt : ℚ → ℚ) (charge : List ℚ) (facel : ℚ) : Inter :=
  fun i j rsq =>
    let qq := facel * getQ charge i * getQ charge j
    let rinv := invsqrt rsq
    let vcoul := qq * rinv
    ⟨vcoul * rinv * rinv, vcoul, 0⟩

/-- Modelled from the spec (sections 3 and 4.2 step 3b, tabulated Coulomb):
`VFtab` interleaves potential and scaled-force samples at spacing
`1/tabscale`; the spec (section 9) leaves the interpolation order open, so
linear interpolation is fixed here: with `rt = r*tabscale`, `n0 = ⌊rt⌋` and
`eps = rt - n0`, the energy is `qq*(Y + eps*F)` and the force coefficient is
`qq*F*tabscale*rinv`, where `Y = VFtab[2*n0]` and `F = VFtab[2*n0+1]`. -/
def tabCoulInter (invsqrt : ℚ → ℚ) (charge : List ℚ) (facel : ℚ)
    (tabscale : ℚ) (VFtab : List ℚ) : Inter :=
  fun i j rsq =>
    let qq := facel * getQ charge i * getQ charge j
    let rinv := invsqrt rsq
    let r := rsq * rinv
    let rt := r * tabscale
    let n0 := (Rat.floor rt).toNat
    let eps := rt - (n0 : ℚ)
    let Y := getQ VFtab (2 * n0)
    let F := getQ VFtab (2 * n0 + 1)
    let VV := Y + eps * F
    ⟨qq * F * tabscale * rinv, qq * VV, 0⟩

/-- Modelled from the spec: the `inl0100_sse` entry point — Lennard-Jones
only, no Coulomb (the `Vc` accumulator receives only zero contributions). -/
def inl0100_sse (type : List ℕ) (ntype : ℕ) (nbfp : List ℚ)
    (inp : KernelInput) (out : KernelOut) : KernelOut :=
  kernelRun (ljInter type ntype nbfp) inp out

/-- Modelled from the spec: the `inl1000_sse` entry point — analytic Coulomb
only. -/
def inl1000_sse (invsqrt : ℚ → ℚ) (charge : List ℚ) (facel : ℚ)
    (inp : KernelInput) (out : KernelOut) : KernelOut :=
  kernelRun (coulInter invsqrt charge facel) inp out

/-- Modelled from the spec: the `inl3000_sse` entry point — tabulated
Coulomb. -/
def inl3000_sse (invsqrt : ℚ → ℚ) (charge : List ℚ) (facel : ℚ)
    (tabscale : ℚ) (VFtab : List ℚ) (inp : KernelInput) (out : KernelOut) :
    KernelOut :=
  kernelRun (tabCoulInter invsqrt charge facel tabscale VFtab) inp out

/-- Split a list into consecutive chunks of size `m` (a chunk always takes at
least the head, so the chunks concatenate back to the input for every `m`).
Models the solvent-molecule grouping of partner ids (spec section 4.3). -/
def chunkList (m : ℕ) : List ℕ → List (List ℕ)
  | [] => []
  | x :: xs => (x :: xs.take (m - 1)) :: chunkList m (xs.drop (m - 1))
termination_by l => l.length
decreasing_by
  simp only [List.length_drop, List.length_cons]
  omega

/-- Modelled from the spec (section 4.3): the solvent-batched partner loop of
group `k` — partners are processed `nsatoms` consecutive ids at a time, one
rigid solvent molecule per outer iteration, evaluating the same site
interactions within each unrolled block. -/
def partnerFoldBatched (inter : Inter) (inp : KernelInput) (m : ℕ)
    (out : KernelOut) (k : ℕ) : GroupAcc :=
  (chunkList m (groupPartnerIds inp k)).foldl
    (fun a mol =>
      mol.foldl
        (pairStep inter inp.pos (inp.iinr.getD k 0) (shiftedPos inp k)) a)
    ⟨Vec3.zero, 0, 0, out.faction⟩

/-- Modelled from the spec (sections 4.2 and 4.3): one group of the batched
kernel; identical wrap-up to `groupStep`, batched partner loop. -/
def groupStepBatched (inter : Inter) (inp : KernelInput) (m : ℕ)
    (out : KernelOut) (k : ℕ) : KernelOut :=
  let acc := partnerFoldBatched inter inp m out k
  { faction := addAtV acc.faction (inp.iinr.getD k 0) acc.fi
    fshift := addAtV out.fshift (inp.shift.getD k 0) acc.fi
    Vc := addAtQ out.Vc (inp.gid.getD k 0) acc.vctot
    Vnb := addAtQ out.Vnb (inp.gid.getD k 0) acc.vnbtot }

/-- Modelled from the spec (section 4.3): the batched kernel skeleton. -/
def kernelRunBatched (inter : Inter) (inp : KernelInput) (m : ℕ)
    (out : KernelOut) : KernelOut :=
  (List.range inp.nri).foldl (groupStepBatched inter inp m) out

/-- Modelled from the spec: the `inl1010_sse` entry point — analytic Coulomb
with solvent batching; `nsatoms` is the solvent molecule size. -/
def inl1010_sse (invsqrt : ℚ → ℚ) (charge : List ℚ) (facel : ℚ)
    (nsatoms : ℕ) (inp : KernelInput) (out : KernelOut) : KernelOut :=
  kernelRunBatched (coulInter invsqrt charge facel) inp nsatoms out

/-- Elementwise sum of two output-array sets (the "merge by addition"
operation of spec section 9). -/
def addOut (a b : KernelOut) : KernelOut :=
  { faction := List.zipWith Vec3.add a.faction b.faction
    fshift := List.zipWith Vec3.add a.fshift b.fshift
    Vc := List.zipWith (· + ·) a.Vc b.Vc
    Vnb := List.zipWith (· + ·) a.Vnb b.Vnb }

/-- Output arrays of the same sizes as `o`, zero-filled. -/
def zeroOutLike (o : KernelOut) : KernelOut :=
  { faction := o.faction.map fun _ => Vec3.zero
    fshift := o.fshift.map fun _ => Vec3.zero
    Vc := o.Vc.map fun _ => (0 : ℚ)
    Vnb := o.Vnb.map fun _ => (0 : ℚ) }

/-- Sum of a list of vectors. -/
def sumVec (l : List Vec3) : Vec3 := l.foldr Vec3.add Vec3.zero

/-- The sum of the pairwise force vectors of a partner slice: the value of
the group's central-force accumulator after the partner loop. -/
def groupForceOf (inter : Inter) (pos : List Vec3) (iid : ℕ) (xi : Vec3)
    (ps : List ℕ) : Vec3 :=
  sumVec (ps.map (pairFvec inter pos iid xi))

/-- The Coulomb energy subtotal of a partner slice. -/
def groupVcOf (inter : Inter) (pos : List Vec3) (iid : ℕ) (xi : Vec3)
    (ps : List ℕ) : ℚ :=
  (ps.map fun j => (pairTerm inter pos iid xi j).vc).sum

/-- The van-der-Waals energy subtotal of a partner slice. -/
def groupVnbOf (inter : Inter) (pos : List Vec3) (iid : ℕ) (xi : Vec3)
    (ps : List ℕ) : ℚ :=
  (ps.map fun j => (pairTerm inter pos iid xi j).vnb).sum

/-- The per-partner read-modify-write updates a partner slice performs on
`faction[]` (each partner entry receives the negated pairwise force). -/
def applyPairIncs (inter : Inter) (pos : List Vec3) (iid : ℕ) (xi : Vec3)
    (ps : List ℕ) (f : List Vec3) : List Vec3 :=
  ps.foldl (fun f2 j => addAtV f2 j (pairFvec inter pos iid xi j).neg) f

/-- The central-force accumulator of group `k` after its partner loop
(depends only on the neighbor list and positions, not on the output
arrays). -/
def groupForce (inter : Inter) (inp : KernelInput) (k : ℕ) : Vec3 :=
  groupForceOf inter inp.pos (inp.iinr.getD k 0) (shiftedPos inp k)
    (groupPartnerIds inp k)

/-- The Coulomb energy subtotal of group `k`. -/
def groupVc (inter : Inter) (inp : KernelInput) (k : ℕ) : ℚ :=
  groupVcOf inter inp.pos (inp.iinr.getD k 0) (shiftedPos inp k)
    (groupPartnerIds inp k)

/-- The van-der-Waals energy subtotal of group `k`. -/
def groupVnb (inter : Inter) (inp : KernelInput) (k : ℕ) : ℚ :=
  groupVnbOf inter inp.pos (inp.iinr.getD k 0) (shiftedPos inp k)
    (groupPartnerIds inp k)

/-!  Embedding of `FramePairManager` from
`src/programs/mdrun/tests/mdruncomparison.h`.  A `FrameReader` is modelled
as the list of frames it will deliver; `readNextFrame` consumes the head.
`ADD_FAILURE()` calls are modelled by collecting their messages. -/

/-- The two frame readers held by a `FramePairManager`, each modelled as the
sequence of frames it has yet to deliver. -/
structure FramePairManager (F : Type) where
  first : List F
  second : List F

/-- The outcome of one `shouldContinueComparing` probe: whether to continue,
the failure messages registered, the pair of frames just read (when both
reads succeeded), and the manager state afterwards. -/
structure ProbeResult (F : Type) where
  shouldContinue : Bool
  failures : List String
  current : Option (F × F)
  rest : FramePairManager F

/-- `FramePairManager::shouldContinueComparing`: probe for a pair of valid
frames; return true iff both readers produce a next frame; register a test
failure when exactly one of them does. -/
def shouldContinueComparing {F : Type} (m : FramePairManager F) :
    ProbeResult F :=
  match m.first with
  | f :: fs =>
    match m.second with
    | s :: ss =>
      -- Two valid next frames exist, so we should continue comparing.
      ⟨true, [], some (f, s), ⟨fs, ss⟩⟩
    | [] =>
      ⟨false, ["first file had at least one more frame than second file"],
       none, ⟨fs, []⟩⟩
  | [] =>
    match m.second with
    | _s :: ss =>
      ⟨false, ["second file had at least one more frame than first file"],
       none, ⟨[], ss⟩⟩
    | [] =>
      -- Both files ran out of frames at the same time: expected behaviour.
      ⟨false, [], none, ⟨[], []⟩⟩

/-- `FramePairManager::compareAllFramePairs`: while `shouldContinueComparing`
finds a pair of valid frames, invoke `compareTwoFrames` on them.  Returns
the comparison results in invocation order together with the failure
messages registered by the final, unsuccessful probe. -/
def compareAllFramePairs {F α : Type} (compareTwoFrames : F → F → α) :
    FramePairManager F → List α × List String
  | ⟨f :: fs, s :: ss⟩ =>
    -- shouldContinueComparing ⟨f :: fs, s :: ss⟩ succeeds with frames (f, s).
    let r := compareAllFramePairs compareTwoFrames ⟨fs, ss⟩
    (compareTwoFrames f s :: r.1, r.2)
  | ⟨fs, ss⟩ => ([], (shouldContinueComparing ⟨fs, ss⟩).failures)

/-!  Concrete instances used by counterexamples and witnesses. -/

/-- A one-group, one-pair neighbor list: central particle 0 at `(1,0,0)`,
partner particle 1 at the origin, zero shift. -/
def exInp : KernelInput :=
  { nri := 1, iinr := [0], jindex := [0, 1], jjnr := [1], shift := [0],
    shiftvec := [Vec3.zero, ⟨5, 0, 0⟩], gid := [0],
    pos := [⟨1, 0, 0⟩, Vec3.zero] }

/-- Zeroed output arrays sized for `exInp`. -/
def exOut : KernelOut :=
  { faction := [Vec3.zero, Vec3.zero], fshift := [Vec3.zero, Vec3.zero],
    Vc := [0], Vnb := [0] }

/-- `exInp` with partner particle 1 translated by the lattice vector
`(5,0,0)` and the group's shift index adjusted from 0 to 1, where
`shiftvec[1] = shiftvec[0] + (5,0,0)`: the same physical configuration
expressed with a different periodic image. -/
def exInpShifted : KernelInput :=
  { nri := 1, iinr := [0], jindex := [0, 1], jjnr := [1], shift := [1],
    shiftvec := [Vec3.zero, ⟨5, 0, 0⟩], gid := [0],
    pos := [⟨1, 0, 0⟩, ⟨5, 0, 0⟩] }

/-- A one-group neighbor list whose single group has an empty partner range
(`jindex[0] = jindex[1]`). -/
def exInpEmpty : KernelInput :=
  { nri := 1, iinr := [0], jindex := [0, 0], jjnr := [], shift := [0],
    shiftvec := [Vec3.zero], gid := [0], pos := [Vec3.zero] }

/-- The concrete scenario input of the tabulated-Coulomb claim: two unit
charges at distance `1/500`, the first tabulated sample point at
`tabscale = 500`. -/
def inpTab : KernelInput :=
  { nri := 1, iinr := [0], jindex := [0, 1], jjnr := [1], shift := [0],
    shiftvec := [Vec3.zero], gid := [0],
    pos := [⟨1 / 500, 0, 0⟩, Vec3.zero] }

/-- Zeroed output arrays sized for `inpTab`. -/
def outTab : KernelOut :=
  { faction := [Vec3.zero, Vec3.zero], fshift := [Vec3.zero], Vc := [0],
    Vnb := [0] }

/-- A `VFtab` encoding the pure `1/r` Coulomb potential at the sample
points `r = 0` and `r = 1/500` of a `tabscale = 500` table: each sample
interleaves the potential value `1/r` and the scaled force value
`(1/r^2)/tabscale` (the `r = 0` sample is a never-used placeholder). -/
def tabOneOverR : List ℚ := [0, 0, 500, 500]

/-!  Algebraic lemmas about `Vec3` and the accumulation helpers. -/

theorem Vec3.add_zero (a : Vec3) : a.add Vec3.zero = a := by
  simp [Vec3.add, Vec3.zero]

theorem Vec3.zero_add (a : Vec3) : Vec3.zero.add a = a := by
  simp [Vec3.add, Vec3.zero]

theorem Vec3.add_assoc (a b c : Vec3) : (a.add b).add c = a.add (b.add c) := by
  simp [Vec3.add]
  refine ⟨by ring, by ring, by ring⟩

theorem Vec3.add_right_comm (a b c : Vec3) :
    (a.add b).add c = (a.add c).add b := by
  simp [Vec3.add]
  refine ⟨by ring, by ring, by ring⟩

theorem Vec3.neg_neg (a : Vec3) : a.neg.neg = a := by
  simp [Vec3.neg]

theorem getV_nil (i : ℕ) : getV [] i = Vec3.zero := rfl

theorem getV_cons_zero (x : Vec3) (xs : List Vec3) : getV (x :: xs) 0 = x := rfl

theorem getV_cons_succ (x : Vec3) (xs : List Vec3) (i : ℕ) :
    getV (x :: xs) (i + 1) = getV xs i := rfl

theorem addAtV_nil (i : ℕ) (v : Vec3) : addAtV [] i v = [] := by
  simp [addAtV]

theorem addAtV_cons_zero (x : Vec3) (xs : List Vec3) (v : Vec3) :
    addAtV (x :: xs) 0 v = (x.add v) :: xs := rfl

theorem addAtV_cons_succ (x : Vec3) (xs : List Vec3) (i : ℕ) (v : Vec3) :
    addAtV (x :: xs) (i + 1) v = x :: addAtV xs i v := rfl

theorem addAtQ_nil (i : ℕ) (q : ℚ) : addAtQ [] i q = [] := by
  simp [addAtQ]

theorem addAtQ_cons_zero (x : ℚ) (xs : List ℚ) (q : ℚ) :
    addAtQ (x :: xs) 0 q = (x + q) :: xs := rfl

theorem addAtQ_cons_succ (x : ℚ) (xs : List ℚ) (i : ℕ) (q : ℚ) :
    addAtQ (x :: xs) (i + 1) q = x :: addAtQ xs i q := rfl

theorem length_addAtV (l : List Vec3) (i : ℕ) (v : Vec3) :
    (addAtV l i v).length = l.length := by
  simp [addAtV]

theorem length_addAtQ (l : List ℚ) (i : ℕ) (q : ℚ) :
    (addAtQ l i q).length = l.length := by
  simp [addAtQ]

theorem set_getV (l : List Vec3) (i : ℕ) : l.set i (getV l i) = l := by
  induction l generalizing i with
  | nil => simp
  | cons x xs ih =>
    cases i with
    | zero => simp [getV]
    | succ n => simp [getV_cons_succ, List.set, ih]

theorem set_getQ (l : List ℚ) (i : ℕ) : l.set i (getQ l i) = l := by
  induction l generalizing i with
  | nil => simp
  | cons x xs ih =>
    cases i with
    | zero => simp [getQ]
    | succ n =>
      have : getQ (x :: xs) (n + 1) = getQ xs n := rfl
      simp [this, List.set, ih]

theorem addAtV_zero_vec (l : List Vec3) (i : ℕ) :
    addAtV l i Vec3.zero = l := by
  rw [addAtV, Vec3.add_zero, set_getV]

theorem addAtQ_zero_val (l : List ℚ) (i : ℕ) : addAtQ l i 0 = l := by
  rw [addAtQ, add_zero, set_getQ]

theorem addAtV_zipWith (a : List Vec3) :
    ∀ (b : List Vec3) (i : ℕ) (v : Vec3),
    addAtV (List.zipWith Vec3.add a b) i v =
      List.zipWith Vec3.add a (addAtV b i v) := by
  induction a with
  | nil => intro b i v; simp [addAtV]
  | cons x xs ih =>
    intro b i v
    cases b with
    | nil => simp [addAtV]
    | cons y ys =>
      cases i with
      | zero =>
        simp [addAtV_cons_zero, Vec3.add_assoc]
      | succ n =>
        simp only [List.zipWith_cons_cons, addAtV_cons_succ]
        rw [ih]

theorem addAtQ_zipWith (a : List ℚ) :
    ∀ (b : List ℚ) (i : ℕ) (q : ℚ),
    addAtQ (List.zipWith (· + ·) a b) i q =
      List.zipWith (· + ·) a (addAtQ b i q) := by
  induction a with
  | nil => intro b i q; simp [addAtQ]
  | cons x xs ih =>
    intro b i q
    cases b with
    | nil => simp [addAtQ]
    | cons y ys =>
      cases i with
      | zero =>
        simp [addAtQ_cons_zero, add_assoc]
      | succ n =>
        simp only [List.zipWith_cons_cons, addAtQ_cons_succ]
        rw [ih]

theorem zipWith_add_zeroV (l : List Vec3) :
    List.zipWith Vec3.add l (l.map fun _ => Vec3.zero) = l := by
  induction l with
  | nil => rfl
  | cons x xs ih =>
    simp only [List.map_cons, List.zipWith_cons_cons]
    rw [ih, Vec3.add_zero]

theorem zipWith_add_zeroQ (l : List ℚ) :
    List.zipWith (· + ·) l (l.map fun _ => (0 : ℚ)) = l := by
  induction l with
  | nil => rfl
  | cons x xs ih =>
    simp only [List.map_cons, List.zipWith_cons_cons]
    rw [ih, add_zero]

theorem sumVec_nil : sumVec [] = Vec3.zero := rfl

theorem sumVec_cons (x : Vec3) (xs : List Vec3) :
    sumVec (x :: xs) = x.add (sumVec xs) := rfl

theorem sumVec_addAtV (l : List Vec3) :
    ∀ (i : ℕ), i < l.length → ∀ (v : Vec3),
    sumVec (addAtV l i v) = (sumVec l).add v := by
  induction l with
  | nil => intro i hi; simp at hi
  | cons x xs ih =>
    intro i hi v
    cases i with
    | zero =>
      simp [addAtV_cons_zero, sumVec_cons, Vec3.add_right_comm]
    | succ n =>
      have hn : n < xs.length := by simpa using hi
      simp [addAtV_cons_succ, sumVec_cons, ih n hn v, Vec3.add_assoc]

/-!  Decomposition of the partner loop and the group step. -/

theorem partnerLoop_decomp (inter : Inter) (pos : List Vec3) (iid : ℕ)
    (xi : Vec3) :
    ∀ (ps : List ℕ) (fi : Vec3) (vc vnb : ℚ) (f : List Vec3),
    ps.foldl (pairStep inter pos iid xi) ⟨fi, vc, vnb, f⟩ =
      ⟨fi.add (groupForceOf inter pos iid xi ps),
       vc + groupVcOf inter pos iid xi ps,
       vnb + groupVnbOf inter pos iid xi ps,
       applyPairIncs inter pos iid xi ps f⟩ := by
  intro ps
  induction ps with
  | nil =>
    intro fi vc vnb f
    simp [groupForceOf, groupVcOf, groupVnbOf, applyPairIncs, sumVec_nil,
          Vec3.add_zero]
  | cons j ps ih =>
    intro fi vc vnb f
    rw [List.foldl_cons]
    show (ps.foldl (pairStep inter pos iid xi)
        ⟨fi.add (pairFvec inter pos iid xi j),
         vc + (pairTerm inter pos iid xi j).vc,
         vnb + (pairTerm inter pos iid xi j).vnb,
         addAtV f j (pairFvec inter pos iid xi j).neg⟩) = _
    rw [ih]
    simp only [groupForceOf, groupVcOf, groupVnbOf, applyPairIncs,
               List.map_cons, sumVec_cons, List.sum_cons, List.foldl_cons,
               GroupAcc.mk.injEq]
    exact ⟨Vec3.add_assoc _ _ _, by ring, by ring, trivial⟩

theorem partnerFold_eq (inter : Inter) (inp : KernelInput) (out : KernelOut)
    (k : ℕ) :
    partnerFold inter inp out k =
      ⟨groupForce inter inp k, groupVc inter inp k, groupVnb inter inp k,
       applyPairIncs inter inp.pos (inp.iinr.getD k 0) (shiftedPos inp k)
         (groupPartnerIds inp k) out.faction⟩ := by
  rw [partnerFold, partnerLoop_decomp]
  simp [groupForce, groupVc, groupVnb, Vec3.zero_add]

theorem groupStep_eq (inter : Inter) (inp : KernelInput) (out : KernelOut)
    (k : ℕ) :
    groupStep inter inp out k =
      { faction := addAtV
          (applyPairIncs inter inp.pos (inp.iinr.getD k 0)
            (shiftedPos inp k) (groupPartnerIds inp k) out.faction)
          (inp.iinr.getD k 0) (groupForce inter inp k)
        fshift := addAtV out.fshift (inp.shift.getD k 0)
          (groupForce inter inp k)
        Vc := addAtQ out.Vc (inp.gid.getD k 0) (groupVc inter inp k)
        Vnb := addAtQ out.Vnb (inp.gid.getD k 0) (groupVnb inter inp k) } := by
  rw [groupStep, partnerFold_eq]

theorem length_applyPairIncs (inter : Inter) (pos : List Vec3) (iid : ℕ)
    (xi : Vec3) :
    ∀ (ps : List ℕ) (f : List Vec3),
    (applyPairIncs inter pos iid xi ps f).length = f.length := by
  intro ps
  induction ps with
  | nil => intro f; rfl
  | cons j ps ih =>
    intro f
    rw [applyPairIncs, List.foldl_cons]
    show (applyPairIncs inter pos iid xi ps _).length = _
    rw [ih, length_addAtV]

theorem groupStep_lengths (inter : Inter) (inp : KernelInput)
    (out : KernelOut) (k : ℕ) :
    (groupStep inter inp out k).faction.length = out.faction.length ∧
    (groupStep inter inp out k).fshift.length = out.fshift.length ∧
    (groupStep inter inp out k).Vc.length = out.Vc.length ∧
    (groupStep inter inp out k).Vnb.length = out.Vnb.length := by
  rw [groupStep_eq]
  exact ⟨by simp [length_addAtV, length_applyPairIncs],
         by simp [length_addAtV],
         by simp [length_addAtQ],
         by simp [length_addAtQ]⟩

theorem foldGroups_lengths (inter : Inter) (inp : KernelInput) :
    ∀ (ks : List ℕ) (out : KernelOut),
    ((ks.foldl (groupStep inter inp) out).faction.length =
        out.faction.length) ∧
    ((ks.foldl (groupStep inter inp) out).fshift.length =
        out.fshift.length) ∧
    ((ks.foldl (groupStep inter inp) out).Vc.length = out.Vc.length) ∧
    ((ks.foldl (groupStep inter inp) out).Vnb.length = out.Vnb.length) := by
  intro ks
  induction ks with
  | nil => intro out; exact ⟨rfl, rfl, rfl, rfl⟩
  | cons k ks ih =>
    intro out
    rw [List.foldl_cons]
    obtain ⟨h1, h2, h3, h4⟩ := ih (groupStep inter inp out k)
    obtain ⟨g1, g2, g3, g4⟩ := groupStep_lengths inter inp out k
    exact ⟨h1.trans g1, h2.trans g2, h3.trans g3, h4.trans g4⟩

/-!  Additivity of accumulation. -/

theorem applyPairIncs_zipWith (inter : Inter) (pos : List Vec3) (iid : ℕ)
    (xi : Vec3) :
    ∀ (ps : List ℕ) (a b : List Vec3),
    applyPairIncs inter pos iid xi ps (List.zipWith Vec3.add a b) =
      List.zipWith Vec3.add a (applyPairIncs inter pos iid xi ps b) := by
  intro ps
  induction ps with
  | nil => intro a b; rfl
  | cons j ps ih =>
    intro a b
    rw [applyPairIncs, List.foldl_cons]
    show applyPairIncs inter pos iid xi ps
        (addAtV (List.zipWith Vec3.add a b) j _) = _
    rw [addAtV_zipWith, ih]
    rfl

theorem groupStep_addOut (inter : Inter) (inp : KernelInput)
    (a b : KernelOut) (k : ℕ) :
    groupStep inter inp (addOut a b) k = addOut a (groupStep inter inp b k) := by
  rw [groupStep_eq, groupStep_eq]
  show KernelOut.mk _ _ _ _ = _
  rw [addOut]
  simp only [applyPairIncs_zipWith, addAtV_zipWith, addAtQ_zipWith]
  rfl

theorem foldGroups_addOut (inter : Inter) (inp : KernelInput) :
    ∀ (ks : List ℕ) (a b : KernelOut),
    ks.foldl (groupStep inter inp) (addOut a b) =
      addOut a (ks.foldl (groupStep inter inp) b) := by
  intro ks
  induction ks with
  | nil => intro a b; rfl
  | cons k ks ih =>
    intro a b
    rw [List.foldl_cons, groupStep_addOut, ih, List.foldl_cons]

theorem addOut_zeroOutLike (out : KernelOut) :
    addOut out (zeroOutLike out) = out := by
  rw [addOut, zeroOutLike]
  show KernelOut.mk _ _ _ _ = _
  rw [zipWith_add_zeroV, zipWith_add_zeroV, zipWith_add_zeroQ,
      zipWith_add_zeroQ]

/-!  The solvent-batched partner loop revisits exactly the flat pair list. -/

theorem chunkList_join_aux (m : ℕ) :
    ∀ (n : ℕ) (l : List ℕ), l.length ≤ n → (chunkList m l).flatten = l := by
  intro n
  induction n with
  | zero =>
    intro l hl
    have : l = [] := List.length_eq_zero.mp (Nat.le_zero.mp hl)
    subst this
    simp [chunkList]
  | succ n ih =>
    intro l hl
    cases l with
    | nil => simp [chunkList]
    | cons x xs =>
      have hxs : xs.length ≤ n := by simpa using hl
      rw [chunkList]
      rw [List.flatten_cons]
      rw [ih (xs.drop (m - 1)) (by simp; omega)]
      rw [List.cons_append, List.take_append_drop]

theorem chunkList_join (m : ℕ) (l : List ℕ) : (chunkList m l).flatten = l :=
  chunkList_join_aux m l.length l le_rfl

theorem foldl_join_eq {α β : Type _} (f : β → α → β) :
    ∀ (cs : List (List α)) (b : β),
    cs.foldl (fun a c => c.foldl f a) b = cs.flatten.foldl f b := by
  intro cs
  induction cs with
  | nil => intro b; rfl
  | cons c cs ih =>
    intro b
    rw [List.foldl_cons, ih, List.flatten_cons, List.foldl_append]

theorem partnerFoldBatched_eq (inter : Inter) (inp : KernelInput) (m : ℕ)
    (out : KernelOut) (k : ℕ) :
    partnerFoldBatched inter inp m out k = partnerFold inter inp out k := by
  rw [partnerFoldBatched, partnerFold, foldl_join_eq, chunkList_join]

theorem groupStepBatched_eq (inter : Inter) (inp : KernelInput) (m : ℕ)
    (out : KernelOut) (k : ℕ) :
    groupStepBatched inter inp m out k = groupStep inter inp out k := by
  rw [groupStepBatched, groupStep, partnerFoldBatched_eq]

theorem kernelRunBatched_eq (inter : Inter) (inp : KernelInput) (m : ℕ)
    (out : KernelOut) :
    kernelRunBatched inter inp m out = kernelRun inter inp out := by
  rw [kernelRunBatched, kernelRun]
  have h : groupStepBatched inter inp m = groupStep inter inp := by
    funext out2 k
    exact groupStepBatched_eq inter inp m out2 k
  rw [h]

/-!  Congruence of the pair geometry under compensated translations. -/

theorem Vec3.add_cancel_sub (a b L : Vec3) :
    (a.add L).sub (b.add L) = a.sub b := by
  simp [Vec3.add, Vec3.sub]

theorem pairFvec_congr (inter : Inter) (pos2 pos : List Vec3) (iid : ℕ)
    (xi2 xi : Vec3) (j : ℕ)
    (h : pairDisp pos2 xi2 j = pairDisp pos xi j) :
    pairFvec inter pos2 iid xi2 j = pairFvec inter pos iid xi j := by
  rw [pairFvec, pairFvec, pairTerm, pairTerm, h]

theorem pairTerm_congr (inter : Inter) (pos2 pos : List Vec3) (iid : ℕ)
    (xi2 xi : Vec3) (j : ℕ)
    (h : pairDisp pos2 xi2 j = pairDisp pos xi j) :
    pairTerm inter pos2 iid xi2 j = pairTerm inter pos iid xi j := by
  rw [pairTerm, pairTerm, h]

theorem applyPairIncs_congr (inter : Inter) (pos2 pos : List Vec3)
    (iid : ℕ) (xi2 xi : Vec3) :
    ∀ (ps : List ℕ),
    (∀ j ∈ ps, pairDisp pos2 xi2 j = pairDisp pos xi j) →
    ∀ (f : List Vec3),
    applyPairIncs inter pos2 iid xi2 ps f =
      applyPairIncs inter pos iid xi ps f := by
  intro ps
  induction ps with
  | nil => intro _ f; rfl
  | cons j ps ih =>
    intro h f
    rw [applyPairIncs, List.foldl_cons, applyPairIncs, List.foldl_cons]
    rw [pairFvec_congr inter pos2 pos iid xi2 xi j (h j (by simp))]
    exact ih (fun j2 hj2 => h j2 (by simp [hj2])) _

theorem groupForceOf_congr (inter : Inter) (pos2 pos : List Vec3) (iid : ℕ)
    (xi2 xi : Vec3) (ps : List ℕ)
    (h : ∀ j ∈ ps, pairDisp pos2 xi2 j = pairDisp pos xi j) :
    groupForceOf inter pos2 iid xi2 ps = groupForceOf inter pos iid xi ps := by
  rw [groupForceOf, groupForceOf]
  congr 1
  exact List.map_congr_left
    (fun j hj => pairFvec_congr inter pos2 pos iid xi2 xi j (h j hj))

theorem groupVcOf_congr (inter : Inter) (pos2 pos : List Vec3) (iid : ℕ)
    (xi2 xi : Vec3) (ps : List ℕ)
    (h : ∀ j ∈ ps, pairDisp pos2 xi2 j = pairDisp pos xi j) :
    groupVcOf inter pos2 iid xi2 ps = groupVcOf inter pos iid xi ps := by
  rw [groupVcOf, groupVcOf]
  congr 1
  exact List.map_congr_left
    (fun j hj => by rw [pairTerm_congr inter pos2 pos iid xi2 xi j (h j hj)])

theorem groupVnbOf_congr (inter : Inter) (pos2 pos : List Vec3) (iid : ℕ)
    (xi2 xi : Vec3) (ps : List ℕ)
    (h : ∀ j ∈ ps, pairDisp pos2 xi2 j = pairDisp pos xi j) :
    groupVnbOf inter pos2 iid xi2 ps = groupVnbOf inter pos iid xi ps := by
  rw [groupVnbOf, groupVnbOf]
  congr 1
  exact List.map_congr_left
    (fun j hj => by rw [pairTerm_congr inter pos2 pos iid xi2 xi j (h j hj)])

/-!  Invariance of a group step under a compensated periodic-image
translation: partner positions translated by `L`, shift indices adjusted so
the effective shift vector gains `L`. -/

theorem groupStep_translated (inter : Inter) (inp2 inp : KernelInput)
    (L : Vec3) (k : ℕ)
    (hiinr : inp2.iinr = inp.iinr) (hjindex : inp2.jindex = inp.jindex)
    (hjjnr : inp2.jjnr = inp.jjnr) (hgid : inp2.gid = inp.gid)
    (hpi : getV inp2.pos (inp.iinr.getD k 0) =
      getV inp.pos (inp.iinr.getD k 0))
    (hpj : ∀ j ∈ groupPartnerIds inp k,
      getV inp2.pos j = (getV inp.pos j).add L)
    (hsv : getV inp2.shiftvec (inp2.shift.getD k 0) =
      (getV inp.shiftvec (inp.shift.getD k 0)).add L)
    (out2 out : KernelOut) (hf : out2.faction = out.faction)
    (hvc : out2.Vc = out.Vc) (hvnb : out2.Vnb = out.Vnb) :
    (groupStep inter inp2 out2 k).faction =
      (groupStep inter inp out k).faction ∧
    (groupStep inter inp2 out2 k).Vc = (groupStep inter inp out k).Vc ∧
    (groupStep inter inp2 out2 k).Vnb = (groupStep inter inp out k).Vnb := by
  have hps : groupPartnerIds inp2 k = groupPartnerIds inp k := by
    rw [groupPartnerIds, groupPartnerIds, hjindex, hjjnr]
  have hxi : shiftedPos inp2 k = (shiftedPos inp k).add L := by
    rw [shiftedPos, shiftedPos, hiinr, hpi, hsv, Vec3.add_assoc]
  have hdisp : ∀ j ∈ groupPartnerIds inp k,
      pairDisp inp2.pos (shiftedPos inp2 k) j =
        pairDisp inp.pos (shiftedPos inp k) j := by
    intro j hj
    rw [pairDisp, pairDisp, hxi, hpj j hj, Vec3.add_cancel_sub]
  have hGF : groupForce inter inp2 k = groupForce inter inp k := by
    rw [groupForce, groupForce, hiinr, hps]
    exact groupForceOf_congr inter inp2.pos inp.pos _ _ _ _ hdisp
  have hGVc : groupVc inter inp2 k = groupVc inter inp k := by
    rw [groupVc, groupVc, hiinr, hps]
    exact groupVcOf_congr inter inp2.pos inp.pos _ _ _ _ hdisp
  have hGVnb : groupVnb inter inp2 k = groupVnb inter inp k := by
    rw [groupVnb, groupVnb, hiinr, hps]
    exact groupVnbOf_congr inter inp2.pos inp.pos _ _ _ _ hdisp
  have hAPI : applyPairIncs inter inp2.pos (inp2.iinr.getD k 0)
      (shiftedPos inp2 k) (groupPartnerIds inp2 k) out2.faction =
      applyPairIncs inter inp.pos (inp.iinr.getD k 0) (shiftedPos inp k)
        (groupPartnerIds inp k) out.faction := by
    rw [hiinr, hps, hf]
    exact applyPairIncs_congr inter inp2.pos inp.pos _ _ _
      (groupPartnerIds inp k) hdisp out.faction
  simp only [groupStep_eq]
  exact ⟨by rw [hAPI, hGF, hiinr], by rw [hvc, hGVc, hgid],
         by rw [hvnb, hGVnb, hgid]⟩

theorem foldGroups_translated (inter : Inter) (inp2 inp : KernelInput)
    (L : Vec3)
    (hiinr : inp2.iinr = inp.iinr) (hjindex : inp2.jindex = inp.jindex)
    (hjjnr : inp2.jjnr = inp.jjnr) (hgid : inp2.gid = inp.gid) :
    ∀ (ks : List ℕ),
    (∀ k ∈ ks, getV inp2.pos (inp.iinr.getD k 0) =
      getV inp.pos (inp.iinr.getD k 0)) →
    (∀ k ∈ ks, ∀ j ∈ groupPartnerIds inp k,
      getV inp2.pos j = (getV inp.pos j).add L) →
    (∀ k ∈ ks, getV inp2.shiftvec (inp2.shift.getD k 0) =
      (getV inp.shiftvec (inp.shift.getD k 0)).add L) →
    ∀ (out2 out : KernelOut), out2.faction = out.faction →
    out2.Vc = out.Vc → out2.Vnb = out.Vnb →
    ((ks.foldl (groupStep inter inp2) out2).faction =
        (ks.foldl (groupStep inter inp) out).faction ∧
     (ks.foldl (groupStep inter inp2) out2).Vc =
        (ks.foldl (groupStep inter inp) out).Vc ∧
     (ks.foldl (groupStep inter inp2) out2).Vnb =
        (ks.foldl (groupStep inter inp) out).Vnb) := by
  intro ks
  induction ks with
  | nil =>
    intro _ _ _ out2 out hf hvc hvnb
    exact ⟨hf, hvc, hvnb⟩
  | cons k ks ih =>
    intro hpi hpj hsv out2 out hf hvc hvnb
    rw [List.foldl_cons, List.foldl_cons]
    obtain ⟨g1, g2, g3⟩ := groupStep_translated inter inp2 inp L k hiinr
      hjindex hjjnr hgid (hpi k (by simp)) (hpj k (by simp))
      (hsv k (by simp)) out2 out hf hvc hvnb
    exact ih (fun k2 hk2 => hpi k2 (by simp [hk2]))
      (fun k2 hk2 => hpj k2 (by simp [hk2]))
      (fun k2 hk2 => hsv k2 (by simp [hk2]))
      (groupStep inter inp2 out2 k) (groupStep inter inp out k) g1 g2 g3

/-!  Total shift-force bookkeeping. -/

theorem foldGroups_fshift_sum (inter : Inter) (inp : KernelInput) :
    ∀ (ks : List ℕ) (out : KernelOut),
    (∀ k ∈ ks, inp.shift.getD k 0 < out.fshift.length) →
    sumVec ((ks.foldl (groupStep inter inp) out).fshift) =
      (sumVec out.fshift).add (sumVec (ks.map (groupForce inter inp))) := by
  intro ks
  induction ks with
  | nil =>
    intro out _
    rw [List.foldl_nil, List.map_nil, sumVec_nil, Vec3.add_zero]
  | cons k ks ih =>
    intro out hb
    rw [List.foldl_cons, List.map_cons, sumVec_cons]
    have hlen : (groupStep inter inp out k).fshift.length =
        out.fshift.length := (groupStep_lengths inter inp out k).2.1
    have hb2 : ∀ k2 ∈ ks, inp.shift.getD k2 0 <
        (groupStep inter inp out k).fshift.length := by
      intro k2 hk2
      rw [hlen]
      exact hb k2 (by simp [hk2])
    rw [ih (groupStep inter inp out k) hb2]
    have : (groupStep inter inp out k).fshift =
        addAtV out.fshift (inp.shift.getD k 0) (groupForce inter inp k) := by
      rw [groupStep_eq]
    rw [this, sumVec_addAtV out.fshift (inp.shift.getD k 0)
        (hb k (by simp)) (groupForce inter inp k), Vec3.add_assoc]

/-!  Claim theorems. -/

/-- C1: for every kernel variant (arbitrary interaction evaluator `inter`)
and every single pair interaction processed by the inner loop, the force
vector added to the partner's entry in `faction[]` and the force vector
added to the group's running central-particle accumulator (before the
shift-force aggregation) are exact negatives of each other: the partner
entry receives `(pairFvec ...).neg` while the central accumulator receives
its negation. -/
theorem C1_pair_momentum_conservation (inter : Inter) (pos : List Vec3)
    (iid : ℕ) (xi : Vec3) (acc : GroupAcc) (jid : ℕ) :
    (pairStep inter pos iid xi acc jid).faction =
      addAtV acc.faction jid ((pairFvec inter pos iid xi jid).neg) ∧
    (pairStep inter pos iid xi acc jid).fi =
      acc.fi.add ((pairFvec inter pos iid xi jid).neg).neg :=
  ⟨rfl, by rw [Vec3.neg_neg]; rfl⟩

/-- C2 (amended): a kernel call only adds its contribution to pre-existing
accumulator contents and never overwrites them — for any starting output
arrays, the result equals the starting arrays plus, elementwise, the result
of the same call on zeroed arrays of the same sizes.  (Consequently two
sequential calls starting from zeroed arrays equal the elementwise sum of
two independent zero-started calls; summing two independent zero-started
results yields twice one call, not one call, which is what the
counterexample below records.) -/
theorem C2_kernelRun_additive (inter : Inter) (inp : KernelInput)
    (out : KernelOut) :
    kernelRun inter inp out =
      addOut out (kernelRun inter inp (zeroOutLike out)) := by
  calc kernelRun inter inp out
      = kernelRun inter inp (addOut out (zeroOutLike out)) := by
        rw [addOut_zeroOutLike]
    _ = addOut out (kernelRun inter inp (zeroOutLike out)) := by
        rw [kernelRun, kernelRun]
        exact foldGroups_addOut inter inp _ out (zeroOutLike out)

/-- C2 counterexample: summing the result sets of two zero-started calls
elementwise does not equal the result of a single zero-started call — on a
one-pair Lennard-Jones input the summed `Vnb` is `[2]` while one call
produces `[1]`. -/
theorem C2_double_sum_cex :
    addOut (inl0100_sse [0, 0] 1 [0, 1] exInp exOut)
        (inl0100_sse [0, 0] 1 [0, 1] exInp exOut) ≠
      inl0100_sse [0, 0] 1 [0, 1] exInp exOut := by
  intro h
  have h2 := congrArg KernelOut.Vnb h
  norm_num [inl0100_sse, kernelRun, groupStep, partnerFold, groupPartnerIds,
    exInp, exOut, pairStep, pairFvec, pairTerm, pairDisp, ljInter,
    shiftedPos, getV, getQ, addAtV, addAtQ, Vec3.zero, Vec3.add, Vec3.sub,
    Vec3.dot, Vec3.smul, Vec3.neg, List.range_succ, addOut] at h2

/-- C3: the solvent-batched Coulomb kernel `inl1010_sse`, run on a neighbor
list whose partner slices it regroups into whole solvent molecules of
`nsatoms` sites, produces exactly the same `faction`, `fshift`, `Vc` and
`Vnb` as the non-batched `inl1000_sse` on the same pairs enumerated
individually (exact equality in the exact-arithmetic model, hence "to
floating-point rounding" in the machine model). -/
theorem C3_inl1010_eq_inl1000 (invsqrt : ℚ → ℚ) (charge : List ℚ)
    (facel : ℚ) (nsatoms : ℕ) (inp : KernelInput) (out : KernelOut) :
    inl1010_sse invsqrt charge facel nsatoms inp out =
      inl1000_sse invsqrt charge facel inp out := by
  rw [inl1010_sse, inl1000_sse, kernelRunBatched_eq]

/-- C4 (amended): translating a periodic image's coordinate set (the
partner particles of the affected groups) by a lattice vector `L` and
correspondingly adjusting the `shift[]` indices so that each group's
effective shift vector gains `L` leaves every computed force in `faction`
and every energy in `Vc` and `Vnb` unchanged.  The per-group shift-force
contribution is unchanged in value as well (it is `groupForce`, invariant
under these hypotheses), but it accumulates at the adjusted shift index,
so the `fshift` array itself changes when the adjusted indices differ from
the originals — the part of the claim the counterexample below refutes. -/
theorem C4_translation_invariance (inter : Inter) (inp2 inp : KernelInput)
    (L : Vec3) (out : KernelOut)
    (hnri : inp2.nri = inp.nri)
    (hiinr : inp2.iinr = inp.iinr) (hjindex : inp2.jindex = inp.jindex)
    (hjjnr : inp2.jjnr = inp.jjnr) (hgid : inp2.gid = inp.gid)
    (hpi : ∀ k ∈ List.range inp.nri, getV inp2.pos (inp.iinr.getD k 0) =
      getV inp.pos (inp.iinr.getD k 0))
    (hpj : ∀ k ∈ List.range inp.nri, ∀ j ∈ groupPartnerIds inp k,
      getV inp2.pos j = (getV inp.pos j).add L)
    (hsv : ∀ k ∈ List.range inp.nri,
      getV inp2.shiftvec (inp2.shift.getD k 0) =
        (getV inp.shiftvec (inp.shift.getD k 0)).add L) :
    (kernelRun inter inp2 out).faction =
      (kernelRun inter inp out).faction ∧
    (kernelRun inter inp2 out).Vc = (kernelRun inter inp out).Vc ∧
    (kernelRun inter inp2 out).Vnb = (kernelRun inter inp out).Vnb := by
  rw [kernelRun, kernelRun, hnri]
  exact foldGroups_translated inter inp2 inp L hiinr hjindex hjjnr hgid
    (List.range inp.nri) hpi hpj hsv out out rfl rfl rfl

/-- C4 witness: the amended invariance theorem at the concrete translated
configuration `exInpShifted` versus `exInp`. -/
theorem C4_translation_invariance_w :
    (kernelRun (ljInter [0, 0] 1 [0, 1]) exInpShifted exOut).faction =
      (kernelRun (ljInter [0, 0] 1 [0, 1]) exInp exOut).faction ∧
    (kernelRun (ljInter [0, 0] 1 [0, 1]) exInpShifted exOut).Vc =
      (kernelRun (ljInter [0, 0] 1 [0, 1]) exInp exOut).Vc ∧
    (kernelRun (ljInter [0, 0] 1 [0, 1]) exInpShifted exOut).Vnb =
      (kernelRun (ljInter [0, 0] 1 [0, 1]) exInp exOut).Vnb :=
  C4_translation_invariance (ljInter [0, 0] 1 [0, 1]) exInpShifted exInp
    ⟨5, 0, 0⟩ exOut rfl rfl rfl rfl rfl
    (by
      intro k hk
      simp only [exInp, List.mem_range, Nat.lt_one_iff] at hk
      subst hk
      rfl)
    (by
      intro k hk j hj
      simp only [exInp, List.mem_range, Nat.lt_one_iff] at hk
      subst hk
      simp only [groupPartnerIds, exInp] at hj
      norm_num at hj
      subst hj
      norm_num [exInp, exInpShifted, getV, Vec3.add, Vec3.zero])
    (by
      intro k hk
      simp only [exInp, List.mem_range, Nat.lt_one_iff] at hk
      subst hk
      norm_num [exInp, exInpShifted, getV, Vec3.add, Vec3.zero])

/-- C4 counterexample: with the partner particle translated by `(5,0,0)`
and the shift index adjusted accordingly (`exInpShifted` versus `exInp`),
forces and energies are unchanged but the `fshift` array is not: the
group's shift-force contribution lands at index 1 instead of index 0, so
the claim that `fshift` is left unchanged fails. -/
theorem C4_translation_fshift_cex :
    (inl0100_sse [0, 0] 1 [0, 1] exInpShifted exOut).fshift ≠
      (inl0100_sse [0, 0] 1 [0, 1] exInp exOut).fshift := by
  intro h
  norm_num [inl0100_sse, kernelRun, groupStep, partnerFold, groupPartnerIds,
    exInp, exInpShifted, exOut, pairStep, pairFvec, pairTerm, pairDisp,
    ljInter, shiftedPos, getV, getQ, addAtV, addAtQ, Vec3.zero, Vec3.add,
    Vec3.sub, Vec3.dot, Vec3.smul, Vec3.neg, List.range_succ] at h

/-- C5: after group `k`'s partner loop completes, the group accumulator's
central force equals `groupForce`; exactly that vector is added to
`faction[]` at `iinr[k]` and the same vector is added to `fshift[]` at
`shift[k]`; and (when the shift indices are in range) the total
contribution a call makes to `fshift[]` is the sum over groups of their
accumulated central forces. -/
theorem C5_central_force_bookkeeping (inter : Inter) (inp : KernelInput)
    (out : KernelOut)
    (hb : ∀ k ∈ List.range inp.nri,
      inp.shift.getD k 0 < out.fshift.length) :
    (∀ k, (partnerFold inter inp out k).fi = groupForce inter inp k) ∧
    (∀ k, (groupStep inter inp out k).fshift =
        addAtV out.fshift (inp.shift.getD k 0) (groupForce inter inp k)) ∧
    (∀ k, (groupStep inter inp out k).faction =
        addAtV (partnerFold inter inp out k).faction (inp.iinr.getD k 0)
          (groupForce inter inp k)) ∧
    sumVec ((kernelRun inter inp out).fshift) =
      (sumVec out.fshift).add
        (sumVec ((List.range inp.nri).map (groupForce inter inp))) := by
  refine ⟨?_, ?_, ?_, ?_⟩
  · intro k; rw [partnerFold_eq]
  · intro k; rw [groupStep_eq]
  · intro k; rw [groupStep_eq, partnerFold_eq]
  · rw [kernelRun]
    exact foldGroups_fshift_sum inter inp (List.range inp.nri) out hb

/-- C5 witness: the bookkeeping theorem applied to the concrete one-group
Lennard-Jones input. -/
theorem C5_central_force_bookkeeping_w :
    sumVec ((kernelRun (ljInter [0, 0] 1 [0, 1]) exInp exOut).fshift) =
      (sumVec exOut.fshift).add
        (sumVec ((List.range exInp.nri).map
          (groupForce (ljInter [0, 0] 1 [0, 1]) exInp))) :=
  (C5_central_force_bookkeeping (ljInter [0, 0] 1 [0, 1]) exInp exOut
    (by decide)).2.2.2

/-- C6: a kernel call never resizes any output array — the lengths of
`faction`, `fshift`, `Vc` and `Vnb` are preserved exactly.  (In this
functional embedding the kernel is a pure function of its inputs, so
inputs are read-only and nothing is allocated or freed by construction;
the no-resize part is the substantive content.) -/
theorem C6_kernelRun_preserves_lengths (inter : Inter) (inp : KernelInput)
    (out : KernelOut) :
    (kernelRun inter inp out).faction.length = out.faction.length ∧
    (kernelRun inter inp out).fshift.length = out.fshift.length ∧
    (kernelRun inter inp out).Vc.length = out.Vc.length ∧
    (kernelRun inter inp out).Vnb.length = out.Vnb.length := by
  rw [kernelRun]
  exact foldGroups_lengths inter inp (List.range inp.nri) out

/-- C7: a group whose partner range is empty (`jindex[k] = jindex[k+1]`)
contributes exactly zero to every output array — processing it returns the
output arrays unchanged — and a call whose every group is empty leaves all
accumulators unchanged. -/
theorem C7_empty_group_no_contribution (inter : Inter) (inp : KernelInput)
    (out : KernelOut) :
    (∀ k, inp.jindex.getD k 0 = inp.jindex.getD (k + 1) 0 →
      groupStep inter inp out k = out) ∧
    ((∀ k ∈ List.range inp.nri,
        inp.jindex.getD k 0 = inp.jindex.getD (k + 1) 0) →
      kernelRun inter inp out = out) := by
  have hempty : ∀ (out2 : KernelOut) (k : ℕ),
      inp.jindex.getD k 0 = inp.jindex.getD (k + 1) 0 →
      groupStep inter inp out2 k = out2 := by
    intro out2 k hk
    have hps : groupPartnerIds inp k = [] := by
      rw [groupPartnerIds, hk, Nat.sub_self, List.take_zero]
    rw [groupStep_eq, groupForce, groupVc, groupVnb, applyPairIncs, hps]
    simp only [List.foldl_nil, groupForceOf, groupVcOf, groupVnbOf,
               List.map_nil, sumVec_nil, List.sum_nil, addAtV_zero_vec,
               addAtQ_zero_val]
  refine ⟨hempty out, ?_⟩
  intro hall
  rw [kernelRun]
  have haux : ∀ (ks : List ℕ),
      (∀ k ∈ ks, inp.jindex.getD k 0 = inp.jindex.getD (k + 1) 0) →
      ks.foldl (groupStep inter inp) out = out := by
    intro ks
    induction ks with
    | nil => intro _; rfl
    | cons k ks ih =>
      intro h
      rw [List.foldl_cons, hempty out k (h k (by simp))]
      exact ih (fun k2 hk2 => h k2 (by simp [hk2]))
  exact haux (List.range inp.nri) hall

/-- C7 witness: a call on a one-group neighbor list whose single group has
an empty partner range leaves the zeroed accumulators unchanged. -/
theorem C7_empty_group_no_contribution_w :
    kernelRun (ljInter [0, 0] 1 [0, 1]) exInpEmpty exOut = exOut :=
  (C7_empty_group_no_contribution (ljInter [0, 0] 1 [0, 1]) exInpEmpty
    exOut).2 (by decide)

/-- C8: the tabulated Coulomb kernel `inl3000_sse` on two unit charges at
distance `r = 1/500` — exactly the first tabulated sample point of a
`tabscale = 500` table encoding the pure `1/r` potential — with
`facel = 1`, `charge = [1, 1]` and an exact reciprocal square root,
computes energy `facel*q1*q2/r` and a force of magnitude
`facel*q1*q2/r^2` directed along the separation vector: the central
particle (on the `+x` side of the partner) receives
`⟨facel*q1*q2/r^2, 0, 0⟩` and the partner exactly its negation; the same
vector is recorded as the group's shift force. -/
theorem C8_inl3000_first_sample :
    (inl3000_sse (fun _ => 500) [1, 1] 1 500 tabOneOverR inpTab outTab).Vc =
      [1 * 1 * 1 / (1 / 500 : ℚ)] ∧
    (inl3000_sse (fun _ => 500) [1, 1] 1 500 tabOneOverR inpTab
        outTab).faction =
      [⟨1 * 1 * 1 / (1 / 500 : ℚ) ^ 2, 0, 0⟩,
       (⟨1 * 1 * 1 / (1 / 500 : ℚ) ^ 2, 0, 0⟩ : Vec3).neg] ∧
    (inl3000_sse (fun _ => 500) [1, 1] 1 500 tabOneOverR inpTab
        outTab).fshift =
      [⟨1 * 1 * 1 / (1 / 500 : ℚ) ^ 2, 0, 0⟩] := by
  refine ⟨?_, ?_, ?_⟩ <;>
  norm_num [inl3000_sse, kernelRun, groupStep, partnerFold, groupPartnerIds,
    inpTab, outTab, tabOneOverR, pairStep, pairFvec, pairTerm, pairDisp,
    tabCoulInter, shiftedPos, getV, getQ, addAtV, addAtQ, Vec3.zero,
    Vec3.add, Vec3.sub, Vec3.dot, Vec3.smul, Vec3.neg, List.range_succ,
    Rat.floor]

/-- C9: `FramePairManager::compareAllFramePairs` invokes the supplied
`compareTwoFrames` exactly `min n1 n2` times — once per position, pairing
the i-th frame of the first reader with the i-th frame of the second
reader, in order — and then terminates (the model is a total function). -/
theorem C9_compareAllFramePairs_zip {F α : Type} (cmp : F → F → α)
    (l1 l2 : List F) :
    (compareAllFramePairs cmp ⟨l1, l2⟩).1 =
      (List.zip l1 l2).map (fun p => cmp p.1 p.2) ∧
    (compareAllFramePairs cmp ⟨l1, l2⟩).1.length =
      min l1.length l2.length := by
  induction l1 generalizing l2 with
  | nil => cases l2 <;> simp [compareAllFramePairs]
  | cons f fs ih =>
    cases l2 with
    | nil => simp [compareAllFramePairs]
    | cons s ss =>
      obtain ⟨h1, h2⟩ := ih ss
      refine ⟨?_, ?_⟩
      · simp [compareAllFramePairs, h1]
      · simp [compareAllFramePairs, h2, Nat.succ_min_succ]

/-- C10: `shouldContinueComparing` returns true iff both readers produce a
next frame; it registers a test failure iff exactly one of the two readers
produces a next frame; and when both run out simultaneously it returns
false without registering any failure. -/
theorem C10_shouldContinueComparing_spec {F : Type}
    (m : FramePairManager F) :
    ((shouldContinueComparing m).shouldContinue = true ↔
      m.first ≠ [] ∧ m.second ≠ []) ∧
    ((shouldContinueComparing m).failures ≠ [] ↔
      ((m.first = [] ∧ m.second ≠ []) ∨
       (m.first ≠ [] ∧ m.second = []))) ∧
    (m.first = [] → m.second = [] →
      (shouldContinueComparing m).shouldContinue = false ∧
      (shouldContinueComparing m).failures = []) := by
  obtain ⟨l1, l2⟩ := m
  cases l1 <;> cases l2 <;> simp [shouldContinueComparing]

/-- C10 witness: with both readers empty, the probe returns false and
registers no failure. -/
theorem C10_shouldContinueComparing_spec_w :
    (shouldContinueComparing (⟨[], []⟩ : FramePairManager ℕ)).shouldContinue
        = false ∧
    (shouldContinueComparing (⟨[], []⟩ : FramePairManager ℕ)).failures
        = [] :=
  (C10_shouldContinueComparing_spec (⟨[], []⟩ : FramePairManager ℕ)).2.2
    rfl rfl

end GmxVerify
